import Mathlib

/-!
Verification of the genealogy frontend core (`src/frontend/src/App.tsx`):
the record normalizer, the Ahnentafel ancestor-tree builder, and the
per-node disclosure state engine.  Identifiers are modelled as exact
rationals (`Rat`): the program manipulates finite JavaScript numbers and
every claim involves only values on which double arithmetic is exact.
JavaScript `Map`s and plain objects used as records are modelled as
association lists with JS update semantics (replace in place, else append).
`buildTree` is embedded with an explicit fuel argument: `none` means the
fuel was exhausted, which is how the embedding talks about the unbounded
recursion the source would perform (the source recursion has no other
stopping mechanism than identifier lookups failing).
-/

namespace Genealogy

/-- A JavaScript value as far as the normalizer observes it.  `num q` is a
finite number; `nan` stands for any non-finite numeric value (`NaN`,
`±Infinity`), which `Number.isFinite` rejects. -/
inductive JSValue : Type where
  | undefinedV : JSValue
  | null : JSValue
  | num (q : Rat) : JSValue
  | nan : JSValue
  | str (s : String) : JSValue
  | boolean (b : Bool) : JSValue
deriving DecidableEq

/-- Digits-only string to `Nat` (empty string gives 0, as in JS `Number`). -/
def natOfDigits (s : String) : Option Nat :=
  s.data.foldlM (fun a c => if c.isDigit then some (a * 10 + (c.toNat - 48)) else none) 0

/-- Unsigned decimal numeral, optionally with one decimal point. -/
def parseUnsignedNum (s : String) : Option Rat :=
  match s.splitOn "." with
  | [ip] =>
    if ip = "" then none
    else (natOfDigits ip).map (fun n => (n : Rat))
  | [ip, fp] =>
    if ip = "" && fp = "" then none
    else
      match natOfDigits ip, natOfDigits fp with
      | some n, some f => some ((n : Rat) + (f : Rat) / ((10 : Rat) ^ fp.length))
      | _, _ => none
  | _ => none

/-- Model of JS `Number(string)` restricted to plain decimal numerals:
trimmed empty string is 0; an optional sign followed by digits with at
most one decimal point; anything else (including `"Infinity"`) is
non-finite, encoded as `none`. -/
def strToNumber (s : String) : Option Rat :=
  let t := s.trim
  if t = "" then some 0
  else if t.startsWith "+" then parseUnsignedNum (t.drop 1)
  else if t.startsWith "-" then (parseUnsignedNum (t.drop 1)).map (fun q => -q)
  else parseUnsignedNum t

/-- JS `Number(v)` composed with the `Number.isFinite` test: `some q` iff
the coercion produces the finite number `q`. -/
def jsToNumber : JSValue → Option Rat
  | .undefinedV => none
  | .null => some 0
  | .num q => some q
  | .nan => none
  | .str s => strToNumber s
  | .boolean b => some (if b then 1 else 0)

/-- `parseId` from the source: `null` for nullish input, otherwise the
numeric coercion guarded by `Number.isFinite`. -/
def parseId (v : JSValue) : Option Rat :=
  match v with
  | .undefinedV => none
  | .null => none
  | v => jsToNumber v

/-- JS `String(v)` (number formatting approximated by `Rat`'s printer;
no claim depends on the exact digits). -/
def jsToString : JSValue → String
  | .undefinedV => "undefined"
  | .null => "null"
  | .num q => toString q
  | .nan => "NaN"
  | .str s => s
  | .boolean b => if b then "true" else "false"

/-- A raw input record: a JS object observed by string key; a missing key
reads as `undefined`. -/
abbrev RawRecord := List (String × JSValue)

/-- Property access `raw[key]`. -/
def rawGet (raw : RawRecord) (k : String) : JSValue :=
  match raw.find? (fun e => decide (e.1 = k)) with
  | some e => e.2
  | none => .undefinedV

/-- `readField` from the source: first candidate key bound to a
non-nullish value wins, coerced to its string representation; otherwise
the empty string. -/
def readField (raw : RawRecord) : List String → String
  | [] => ""
  | k :: ks =>
    match rawGet raw k with
    | .undefinedV => readField raw ks
    | .null => readField raw ks
    | v => jsToString v

/-- The canonical entity (`NormalizedPerson` in the source).  The flat
entity and the materialized tree node share this type, as in the source;
the flat entity always carries `children = []`. -/
inductive Person : Type where
  | mk (id : Rat) (generation : Option Rat) (gender : Option JSValue)
      (name birthDate birthPlace spouse unionDate unionPlace childrenCount
        deathDate deathPlace deathAge job : String)
      (children : List Person) : Person

def Person.id : Person → Rat
  | .mk i _ _ _ _ _ _ _ _ _ _ _ _ _ _ => i

def Person.generation : Person → Option Rat
  | .mk _ g _ _ _ _ _ _ _ _ _ _ _ _ _ => g

def Person.children : Person → List Person
  | .mk _ _ _ _ _ _ _ _ _ _ _ _ _ _ cs => cs

/-- The spread `{...node, generation: g, children: cs}` used by the tree
builder and (with unchanged generation) by the map builder. -/
def Person.withTree : Person → Option Rat → List Person → Person
  | .mk i _ gd n bd bp sp ud up cc dd dp da j _, g, cs =>
    .mk i g gd n bd bp sp ud up cc dd dp da j cs

/-- `{...person, children: []}` from `buildMap`. -/
def Person.resetChildren (p : Person) : Person :=
  p.withTree p.generation []

/-- The source's `fieldMap` table. -/
structure FieldMap where
  name : List String
  birthDate : List String
  birthPlace : List String
  spouse : List String
  unionDate : List String
  unionPlace : List String
  childrenCount : List String
  deathDate : List String
  deathPlace : List String
  deathAge : List String
  job : List String

def fieldMap : FieldMap :=
  { name := ["Personne", "name"]
    birthDate := ["Date de naissance", "birth_date", "birthDate"]
    birthPlace := ["Lieu de naissance", "birth_place", "birthPlace"]
    spouse := ["Conjoints", "spouse"]
    unionDate := ["Date de l\x27union", "union_date", "unionDate"]
    unionPlace := ["Lieu de l\x27union", "union_place", "unionPlace"]
    childrenCount := ["Nb. enfants", "children_count", "childrenCount"]
    deathDate := ["Date de décès", "death_date", "deathDate"]
    deathPlace := ["Lieu de décès", "death_place", "deathPlace"]
    deathAge := ["Âge au décès", "age_at_death", "deathAge"]
    job := ["Profession", "professions", "job"] }

/-- `normalizePerson` from the source: the identifier is the first of
`id`, `ID`, `Id`, `sosa`, `Sosa` whose value parses to a finite number
(`??`-chaining over `parseId`); the record is dropped when none does. -/
def normalizePerson (raw : RawRecord) : Option Person :=
  match parseId (rawGet raw "id") <|> parseId (rawGet raw "ID") <|>
      parseId (rawGet raw "Id") <|> parseId (rawGet raw "sosa") <|>
      parseId (rawGet raw "Sosa") with
  | none => none
  | some i =>
    some (.mk i (parseId (rawGet raw "generation"))
      (match rawGet raw "gender" with
        | .undefinedV => none
        | .null => none
        | v => some v)
      (readField raw fieldMap.name)
      (readField raw fieldMap.birthDate)
      (readField raw fieldMap.birthPlace)
      (readField raw fieldMap.spouse)
      (readField raw fieldMap.unionDate)
      (readField raw fieldMap.unionPlace)
      (readField raw fieldMap.childrenCount)
      (readField raw fieldMap.deathDate)
      (readField raw fieldMap.deathPlace)
      (readField raw fieldMap.deathAge)
      (readField raw fieldMap.job)
      [])

/-- The per-item part of `normalizeDataset`:
`.map(normalizePerson).filter(Boolean)`. -/
def normalizeList (l : List RawRecord) : List Person :=
  (l.map normalizePerson).filterMap id

/-! Association lists with JavaScript `Map` / object-spread update
semantics: `aget` is `map.get(k)` (first — and, for maps built by `aset`,
only — entry with that key), `aset` is `map.set(k, v)` /
`{...obj, [k]: v}` (replace in place, else append), `ahas` is
`map.has(k)`. -/

def aget {β : Type} : List (Rat × β) → Rat → Option β
  | [], _ => none
  | e :: t, k => if e.1 = k then some e.2 else aget t k

def aset {β : Type} : List (Rat × β) → Rat → β → List (Rat × β)
  | [], k, v => [(k, v)]
  | e :: t, k, v => if e.1 = k then (k, v) :: t else e :: aset t k v

def ahas {β : Type} (m : List (Rat × β)) (k : Rat) : Bool :=
  (aget m k).isSome

def akeys {β : Type} (m : List (Rat × β)) : List Rat :=
  m.map (fun e => e.1)

/-- The flat entity map `id → Entity` (`Map<number, NormalizedPerson>`). -/
abbrev JsMap := List (Rat × Person)

/-- `buildMap` from the source: insert every person keyed by its id,
children reset to empty; `Map.set` makes later records overwrite
earlier ones with the same id. -/
def buildMap (people : List Person) : JsMap :=
  people.foldl (fun m p => aset m p.id p.resetChildren) []

/-- `Math.min(...list)` on a list known to be non-empty (the empty case,
which JS maps to `Infinity`, is unreachable behind the size guard). -/
def jsMinList : List Rat → Rat
  | [] => 0
  | x :: xs => xs.foldl min x

/-- `findRootId` from the source. -/
def findRootId (m : JsMap) : Option Rat :=
  if m.length = 0 then none
  else if ahas m 1 then some 1
  else some (jsMinList (akeys m))

/-- The root guard in `loadFile`: `if (!rootId) throw ...`.  A JS number
is falsy exactly when it is `0`, `-0` or `NaN`; map keys are finite, so
the guard fires for `none` and for a root id equal to 0. -/
def loadRootFails (m : JsMap) : Bool :=
  match findRootId m with
  | none => true
  | some r => decide (r = 0)

/-- `buildTree` from the source, with explicit fuel.  The outer `Option`
is the fuel monad: `none` means the fuel ran out, i.e. the embedded
computation performed more nested recursive calls than allowed — the
source function itself has no stopping device besides lookup failure.
The inner `Option` is the source's `NormalizedPerson | null`. -/
def buildTreeFuel : Nat → Rat → JsMap → Rat → Option (Option Person)
  | 0, _, _, _ => none
  | fuel + 1, rootId, m, g =>
    match aget m rootId with
    | none => some none
    | some node =>
      match (if ahas m (rootId * 2) then buildTreeFuel fuel (rootId * 2) m (g + 1)
              else some none),
          (if ahas m (rootId * 2 + 1) then buildTreeFuel fuel (rootId * 2 + 1) m (g + 1)
              else some none) with
      | some l, some r =>
        some (some (node.withTree (some (node.generation.getD g)) (([l, r]).filterMap id)))
      | _, _ => none

/-- `buildTree` with the fuel `m.length + 1`, which (proved below) is
sufficient whenever the starting identifier is positive. -/
def buildTree (k : Rat) (m : JsMap) (g : Rat) : Option Person :=
  (buildTreeFuel (m.length + 1) k m g).getD none

/-! The disclosure state engine (`PersonCard` and its `toggle`). -/

inductive OverrideState : Type where
  | expand : OverrideState
  | collapse : OverrideState
deriving DecidableEq

/-- `Overrides = Record<number, OverrideState>`. -/
abbrev Overrides := List (Rat × OverrideState)

/-- `DEFAULT_DEPTH` from the source. -/
def defaultDepth : Int := 4

/-- The `effectiveDepth` computation in `PersonCard`. -/
def effectiveDepth (ov : Option OverrideState) (incoming : Int) : Int :=
  match ov with
  | some .collapse => 1
  | some .expand => defaultDepth
  | none => max incoming 1

/-- `childDepth = Math.max(effectiveDepth - 1, 0)`. -/
def childDepth (eff : Int) : Int := max (eff - 1) 0

/-- `hasChildren = node.children && node.children.length > 0` (an array
is always truthy, so this is the length test). -/
def Person.hasChildrenB (p : Person) : Bool :=
  decide (0 < p.children.length)

/-- `showChildren` (also `isOpen`) for a node rendered with inherited
budget `d` under overrides `ov`. -/
def showChildrenOf (ov : Overrides) (d : Int) (p : Person) : Bool :=
  p.hasChildrenB && decide (1 < effectiveDepth (aget ov p.id) d)

/-- The identifiers of the nodes actually rendered when `PersonCard` is
mounted on `p` with inherited budget `d`: the node itself, then — iff
`showChildren` — the recursively rendered children at budget
`childDepth`. -/
def visibleIds (ov : Overrides) (d : Int) : Person → List Rat
  | p@(.mk i _ _ _ _ _ _ _ _ _ _ _ _ _ cs) =>
    if showChildrenOf ov d p then
      i :: (cs.attach.map
        (fun c => visibleIds ov (childDepth (effectiveDepth (aget ov i) d)) c.1)).flatten
    else [i]
termination_by p => sizeOf p
decreasing_by
  simp only [Person.mk.sizeOf_spec]
  have h := List.sizeOf_lt_of_mem c.2
  omega

/-- The `toggle` callback of `PersonCard`:
`setOverrides(prev => ({...prev, [node.id]: isOpen ? collapse : expand}))`. -/
def toggleNode (ov : Overrides) (d : Int) (p : Person) : Overrides :=
  aset ov p.id (if showChildrenOf ov d p then OverrideState.collapse else OverrideState.expand)

/-- The two events that mutate the override mapping in `App`: a
successful load (which runs `setOverrides({[rootId]: expand})`) and a
toggle on a rendered node. -/
inductive UiEvent : Type where
  | loadSuccess (rootId : Rat) : UiEvent
  | toggleOn (d : Int) (p : Person) : UiEvent

/-- How each event transforms the override mapping. -/
def stepOverrides (ov : Overrides) : UiEvent → Overrides
  | .loadSuccess r => [(r, OverrideState.expand)]
  | .toggleOn d p => toggleNode ov d p

/-! Basic lemmas about the association-list model. -/

theorem aget_aset_self {β : Type} (m : List (Rat × β)) (k : Rat) (v : β) :
    aget (aset m k v) k = some v := by
  induction m with
  | nil => simp [aset, aget]
  | cons e t ih =>
    by_cases h : e.1 = k
    · simp [aset, aget, h]
    · simp [aset, aget, h, ih]

theorem aget_aset_ne {β : Type} (m : List (Rat × β)) (k k' : Rat) (v : β)
    (h : k' ≠ k) : aget (aset m k v) k' = aget m k' := by
  induction m with
  | nil => simp [aset, aget, Ne.symm h]
  | cons e t ih =>
    by_cases he : e.1 = k
    · have he' : e.1 ≠ k' := by rw [he]; exact Ne.symm h
      simp [aset, aget, he, he', Ne.symm h]
    · simp only [aset, if_neg he, aget]
      rw [ih]

theorem akeys_aset {β : Type} (m : List (Rat × β)) (k : Rat) (v : β) :
    akeys (aset m k v) = if ahas m k then akeys m else akeys m ++ [k] := by
  induction m with
  | nil => simp [aset, akeys, ahas, aget]
  | cons e t ih =>
    by_cases h : e.1 = k
    · simp [aset, akeys, ahas, aget, h]
    · simp only [aset, akeys, ahas, aget, h, if_neg h, List.map_cons]
      by_cases ht : (aget t k).isSome
      · simp only [ahas, akeys] at ih
        simp [ht, ih, ht]
      · simp only [ahas, akeys] at ih
        simp [ht, ih]

theorem ahas_iff_mem_akeys {β : Type} (m : List (Rat × β)) (k : Rat) :
    ahas m k = true ↔ k ∈ akeys m := by
  induction m with
  | nil => simp [ahas, aget, akeys]
  | cons e t ih =>
    by_cases h : e.1 = k
    · simp [ahas, aget, akeys, h]
    · simp only [ahas, aget, akeys, List.map_cons, List.mem_cons, if_neg h]
      simp only [ahas, akeys] at ih
      rw [ih]
      constructor
      · exact fun hm => Or.inr hm
      · rintro (hm | hm)
        · exact absurd hm.symm h
        · exact hm

theorem aget_isSome_of_some {β : Type} {m : List (Rat × β)} {k : Rat} {v : β}
    (h : aget m k = some v) : k ∈ akeys m := by
  rw [← ahas_iff_mem_akeys]
  simp [ahas, h]

theorem nodup_akeys_aset {β : Type} (m : List (Rat × β)) (k : Rat) (v : β)
    (h : (akeys m).Nodup) : (akeys (aset m k v)).Nodup := by
  rw [akeys_aset]
  by_cases hk : ahas m k
  · simp [hk, h]
  · have hmem : k ∉ akeys m := fun hm => hk ((ahas_iff_mem_akeys m k).2 hm)
    simp [hk, List.nodup_append, h, hmem]

theorem length_akeys {β : Type} (m : List (Rat × β)) :
    (akeys m).length = m.length := by
  simp [akeys]

/-- Eliminating `attach` from the `visibleIds` recursion. -/
theorem attach_map_fst {α β : Type} (l : List α) (f : α → β) :
    l.attach.map (fun c => f c.1) = l.map f := by
  induction l with
  | nil => rfl
  | cons x xs ih =>
    simp only [List.attach_cons, List.map_cons, List.map_map]
    congr 1

/-! The fuel theory of `buildTree`: results are stable once obtained
(`buildTreeFuel_mono`), and for a positive starting identifier the number
of map keys at or above it bounds the fuel needed
(`buildTreeFuel_total`). -/

/-- Number of distinct keys of `m` that are `≥ k`. -/
def keyBound (m : JsMap) (k : Rat) : Nat :=
  ((akeys m).toFinset.filter (fun j => k ≤ j)).card

theorem keyBound_le_length (m : JsMap) (k : Rat) :
    keyBound m k ≤ m.length := by
  calc ((akeys m).toFinset.filter (fun j => k ≤ j)).card
      ≤ (akeys m).toFinset.card := Finset.card_filter_le _ _
    _ ≤ (akeys m).length := (akeys m).toFinset_card_le
    _ = m.length := length_akeys m

theorem keyBound_lt (m : JsMap) {k k' : Rat} (hmem : k ∈ akeys m)
    (hlt : k < k') : keyBound m k' < keyBound m k := by
  apply Finset.card_lt_card
  rw [Finset.ssubset_iff_of_subset]
  · refine ⟨k, ?_, ?_⟩
    · simp [List.mem_toFinset, hmem]
    · simp [not_le.2 hlt]
  · intro j hj
    simp only [Finset.mem_filter] at hj ⊢
    exact ⟨hj.1, le_trans (le_of_lt hlt) hj.2⟩

theorem buildTreeFuel_mono {m : JsMap} :
    ∀ {f f' : Nat}, f ≤ f' → ∀ {k g : Rat} {r : Option Person},
      buildTreeFuel f k m g = some r → buildTreeFuel f' k m g = some r := by
  intro f
  induction f with
  | zero => intro f' _ k g r h; simp [buildTreeFuel] at h
  | succ f ih =>
    intro f' hf k g r h
    obtain ⟨f'', rfl⟩ : ∃ f'', f' = f'' + 1 :=
      ⟨f' - 1, by omega⟩
    have hff : f ≤ f'' := by omega
    rw [buildTreeFuel] at h ⊢
    cases hk : aget m k with
    | none => rw [hk] at h; exact h
    | some node =>
      rw [hk] at h
      by_cases hl : ahas m (k * 2) = true
      · rw [if_pos hl] at h ⊢
        cases hlr : buildTreeFuel f (k * 2) m (g + 1) with
        | none => rw [hlr] at h; exact absurd h (by simp)
        | some l =>
          rw [hlr] at h
          rw [ih hff hlr]
          by_cases hr : ahas m (k * 2 + 1) = true
          · rw [if_pos hr] at h ⊢
            cases hrr : buildTreeFuel f (k * 2 + 1) m (g + 1) with
            | none => rw [hrr] at h; exact absurd h (by simp)
            | some rr =>
              rw [hrr] at h
              rw [ih hff hrr]
              exact h
          · rw [if_neg hr] at h ⊢; exact h
      · rw [if_neg hl] at h ⊢
        by_cases hr : ahas m (k * 2 + 1) = true
        · rw [if_pos hr] at h ⊢
          cases hrr : buildTreeFuel f (k * 2 + 1) m (g + 1) with
          | none => rw [hrr] at h; exact absurd h (by simp)
          | some rr =>
            rw [hrr] at h
            rw [ih hff hrr]
            exact h
        · rw [if_neg hr] at h ⊢; exact h

theorem buildTreeFuel_total {m : JsMap} :
    ∀ {f : Nat} {k g : Rat}, 0 < k → keyBound m k < f →
      (buildTreeFuel f k m g).isSome = true := by
  intro f
  induction f with
  | zero => intro k g _ hb; omega
  | succ f ih =>
    intro k g hk hb
    rw [buildTreeFuel]
    cases hget : aget m k with
    | none => simp
    | some node =>
      have hmem : k ∈ akeys m := aget_isSome_of_some hget
      have hleft : keyBound m (k * 2) < keyBound m k :=
        keyBound_lt m hmem (by linarith)
      have hright : keyBound m (k * 2 + 1) < keyBound m k :=
        keyBound_lt m hmem (by linarith)
      have hl : (if ahas m (k * 2) then buildTreeFuel f (k * 2) m (g + 1)
          else some none).isSome = true := by
        by_cases h : ahas m (k * 2) = true
        · rw [if_pos h]
          exact ih (by linarith) (by omega)
        · rw [if_neg h]; simp
      have hr : (if ahas m (k * 2 + 1) then buildTreeFuel f (k * 2 + 1) m (g + 1)
          else some none).isSome = true := by
        by_cases h : ahas m (k * 2 + 1) = true
        · rw [if_pos h]
          exact ih (by linarith) (by omega)
        · rw [if_neg h]; simp
      obtain ⟨l, hleq⟩ := Option.isSome_iff_exists.1 hl
      obtain ⟨r, hreq⟩ := Option.isSome_iff_exists.1 hr
      rw [hleq, hreq]
      simp

theorem buildTree_of_aget_none {m : JsMap} {k g : Rat}
    (hget : aget m k = none) : buildTree k m g = none := by
  simp [buildTree, buildTreeFuel, hget]

theorem buildTree_of_aget_some {m : JsMap} {k g : Rat} {node : Person}
    (hk : 0 < k) (hget : aget m k = some node) :
    buildTree k m g = some (node.withTree (some (node.generation.getD g))
      (([buildTree (k * 2) m (g + 1), buildTree (k * 2 + 1) m (g + 1)]).filterMap id)) := by
  have hmem : k ∈ akeys m := aget_isSome_of_some hget
  have hkb : keyBound m k ≤ m.length := keyBound_le_length m k
  have hsub : ∀ k', k < k' → 0 < k' →
      (if ahas m k' then buildTreeFuel m.length k' m (g + 1) else some none) =
        some (buildTree k' m (g + 1)) := by
    intro k' hlt hk'
    by_cases hh : ahas m k' = true
    · rw [if_pos hh]
      have hb : keyBound m k' < m.length :=
        lt_of_lt_of_le (keyBound_lt m hmem hlt) hkb
      obtain ⟨l, hl⟩ := Option.isSome_iff_exists.1 (buildTreeFuel_total hk' hb)
      have hl' := buildTreeFuel_mono (Nat.le_succ m.length) hl
      rw [hl]
      simp [buildTree, hl']
    · rw [if_neg hh]
      have hget' : aget m k' = none := by
        cases hag : aget m k' with
        | none => rfl
        | some v => exact absurd (by simp [ahas, hag]) hh
      rw [buildTree_of_aget_none hget']
  rw [buildTree, buildTreeFuel, hget,
    hsub (k * 2) (by linarith) (by linarith),
    hsub (k * 2 + 1) (by linarith) (by linarith)]
  rfl

theorem children_withTree (p : Person) (g : Option Rat) (cs : List Person) :
    (p.withTree g cs).children = cs := by
  cases p; rfl

theorem generation_withTree (p : Person) (g : Option Rat) (cs : List Person) :
    (p.withTree g cs).generation = g := by
  cases p; rfl

/-! Concrete fixtures used by the claims. -/

/-- A person carrying only an id (all display fields empty, no stored
generation), as produced by the normalizer for `{id: i}`. -/
def mkPerson (i : Rat) : Person :=
  .mk i none none "" "" "" "" "" "" "" "" "" "" "" []

/-- Entity map `{0}`: reachable from the input `[{id: 0}]`. -/
def zeroMap : JsMap := [(0, mkPerson 0)]

def map15 : JsMap :=
  [(1, mkPerson 1), (2, mkPerson 2), (3, mkPerson 3), (4, mkPerson 4), (5, mkPerson 5)]

def map13 : JsMap := [(1, mkPerson 1), (3, mkPerson 3)]

def map357 : JsMap := [(3, mkPerson 3), (5, mkPerson 5), (7, mkPerson 7)]

def chainMap : JsMap :=
  [(1, mkPerson 1), (2, mkPerson 2), (4, mkPerson 4), (8, mkPerson 8), (16, mkPerson 16)]

/-- Root with stored generation 10, parent 2 with no stored generation. -/
def genMap : JsMap :=
  [(1, Person.mk 1 (some 10) none "" "" "" "" "" "" "" "" "" "" "" []), (2, mkPerson 2)]

def childIds (p : Person) : List Rat := p.children.map Person.id

/-- On the map `{0}`, the recursion `buildTree(0)` revisits identifier 0
(`0 * 2 = 0`) and exhausts any fuel. -/
theorem buildTreeFuel_zero_diverges :
    ∀ (f : Nat) (g : Rat), buildTreeFuel f 0 zeroMap g = none := by
  intro f
  induction f with
  | zero => intro g; rfl
  | succ f ih =>
    intro g
    rw [buildTreeFuel]
    have h0 : aget zeroMap 0 = some (mkPerson 0) := rfl
    have h2 : (0 : Rat) * 2 = 0 := by norm_num
    have hh : ahas zeroMap ((0 : Rat) * 2) = true := by rw [h2]; rfl
    rw [h0, if_pos hh, h2, ih]

/-- C1 (amended: starting identifier positive): for every entity map and
every identifier `k > 0` present in the map, `buildTree k` returns a node
whose children are exactly the recursively built nodes for `2k` and
`2k + 1`, in that order, omitting absent branches, so a node has at most
two children and a missing left parent does not prevent the right one;
on entities `{1, 2, 3, 4, 5}` the tree rooted at 1 has children 2 and 3,
node 2 has children 4 and 5, node 3 has none. -/
theorem claim1_buildTree_children :
    (∀ (m : JsMap) (k g : Rat) (node : Person), 0 < k → aget m k = some node →
      buildTree k m g = some (node.withTree (some (node.generation.getD g))
        (([buildTree (k * 2) m (g + 1), buildTree (k * 2 + 1) m (g + 1)]).filterMap id)) ∧
      ∀ t, buildTree k m g = some t → t.children.length ≤ 2) ∧
    (buildTree 1 map15 1).map childIds = some [2, 3] ∧
    (buildTree 1 map15 1).map (fun t => t.children.map childIds) = some [[4, 5], []] ∧
    (buildTree 1 map13 1).map childIds = some [3] := by
  refine ⟨?_, by with_unfolding_all decide, by with_unfolding_all decide,
    by with_unfolding_all decide⟩
  intro m k g node hk hget
  refine ⟨buildTree_of_aget_some hk hget, ?_⟩
  intro t ht
  rw [buildTree_of_aget_some hk hget] at ht
  cases ht
  rw [children_withTree]
  exact le_trans (List.length_filterMap_le _ _) (by simp)

theorem claim1_witness :
    0 < (1 : Rat) ∧ aget map13 1 = some (mkPerson 1) ∧
    buildTree 1 map13 1 = some ((mkPerson 1).withTree
      (some ((mkPerson 1).generation.getD 1))
      (([buildTree (1 * 2) map13 (1 + 1),
          buildTree (1 * 2 + 1) map13 (1 + 1)]).filterMap id)) :=
  ⟨by norm_num, by with_unfolding_all rfl,
    (claim1_buildTree_children.1 map13 1 1 (mkPerson 1) (by norm_num)
      (by with_unfolding_all rfl)).1⟩

/-- C1 is false as stated for identifiers that are not positive: on the
map `{0}` (reachable from the input `[{id: 0}]`) identifier 0 is present,
yet `buildTree(0)` returns no node at any recursion depth — the call
recurses on its own identifier (`0 * 2 = 0`) forever. -/
theorem claim1_counterexample :
    ahas zeroMap 0 = true ∧
    ¬ ∃ (f : Nat) (t : Person), buildTreeFuel f 0 zeroMap 1 = some (some t) := by
  refine ⟨rfl, ?_⟩
  rintro ⟨f, t, hft⟩
  rw [buildTreeFuel_zero_diverges f 1] at hft
  exact Option.noConfusion hft

/-- C2 (amended: starting identifier positive): for every finite entity
map and every starting identifier `k > 0`, `buildTree` terminates:
fuel `m.length + 1` already yields a result, and every larger fuel yields
the same result. -/
theorem claim2_buildTree_terminates :
    ∀ (m : JsMap) (k g : Rat), 0 < k →
      ∃ r : Option Person, buildTreeFuel (m.length + 1) k m g = some r ∧
        ∀ f : Nat, m.length + 1 ≤ f → buildTreeFuel f k m g = some r := by
  intro m k g hk
  have hb : keyBound m k < m.length + 1 :=
    Nat.lt_succ_of_le (keyBound_le_length m k)
  obtain ⟨r, hr⟩ := Option.isSome_iff_exists.1 (buildTreeFuel_total hk hb)
  exact ⟨r, hr, fun f hf => buildTreeFuel_mono hf hr⟩

theorem claim2_witness :
    ∃ r : Option Person, buildTreeFuel (map15.length + 1) 1 map15 1 = some r ∧
      ∀ f : Nat, map15.length + 1 ≤ f → buildTreeFuel f 1 map15 1 = some r :=
  claim2_buildTree_terminates map15 1 1 (by norm_num)

/-- C2 is false as stated: identifiers do not strictly increase with
depth when the starting identifier is 0 (`0 * 2 = 0` revisits it), and on
the map `{0}` the recursion started at the present identifier 0 never
terminates — no amount of fuel produces a result. -/
theorem claim2_counterexample :
    ahas zeroMap 0 = true ∧
    ¬ ∃ f : Nat, (buildTreeFuel f 0 zeroMap 1).isSome = true := by
  refine ⟨rfl, ?_⟩
  rintro ⟨f, hf⟩
  rw [buildTreeFuel_zero_diverges f 1] at hf
  simp at hf

/-! Root selection. -/

theorem foldl_min_le_init (xs : List Rat) (a : Rat) : xs.foldl min a ≤ a := by
  induction xs generalizing a with
  | nil => simp
  | cons x xs ih =>
    simpa using le_trans (ih (min a x)) (min_le_left a x)

theorem foldl_min_le_mem (xs : List Rat) {j : Rat} (hj : j ∈ xs) (a : Rat) :
    xs.foldl min a ≤ j := by
  induction xs generalizing a with
  | nil => cases hj
  | cons x xs ih =>
    rcases List.mem_cons.1 hj with h | h
    · subst h
      simpa using le_trans (foldl_min_le_init xs (min a j)) (min_le_right a j)
    · simpa using ih h (min a x)

theorem foldl_min_mem (xs : List Rat) (a : Rat) :
    xs.foldl min a = a ∨ xs.foldl min a ∈ xs := by
  induction xs generalizing a with
  | nil => left; rfl
  | cons x xs ih =>
    have hstep : (x :: xs).foldl min a = xs.foldl min (min a x) := by simp
    rcases ih (min a x) with h | h
    · rcases min_choice a x with hm | hm
      · left; rw [hstep, h, hm]
      · right; rw [hstep, h, hm]; exact List.mem_cons_self x xs
    · right
      rw [hstep]
      exact List.mem_cons_of_mem x h

theorem jsMinList_mem {l : List Rat} (h : l ≠ []) : jsMinList l ∈ l := by
  cases l with
  | nil => exact absurd rfl h
  | cons x xs =>
    rcases foldl_min_mem xs x with hm | hm
    · rw [jsMinList, hm]; exact List.mem_cons_self x xs
    · rw [jsMinList]; exact List.mem_cons_of_mem x hm

theorem jsMinList_le {l : List Rat} {j : Rat} (hj : j ∈ l) : jsMinList l ≤ j := by
  cases l with
  | nil => cases hj
  | cons x xs =>
    rcases List.mem_cons.1 hj with h | h
    · subst h; rw [jsMinList]; exact foldl_min_le_init xs j
    · rw [jsMinList]; exact foldl_min_le_mem xs h x

/-- C3 (amended): `findRootId` returns 1 whenever id 1 is present,
otherwise the minimum id present, and returns no root iff the map is
empty; however, the load pipeline's no-determinable-root guard
(`if (!rootId)`) also fires on a non-empty map exactly when the selected
root id is the falsy number 0, so the guard is not purely defensive. -/
theorem claim3_root_selection :
    (∀ m : JsMap, findRootId m = none ↔ m = []) ∧
    (∀ m : JsMap, ahas m 1 = true → findRootId m = some 1) ∧
    (∀ m : JsMap, m ≠ [] → ahas m 1 = false →
      ∃ r, findRootId m = some r ∧ r ∈ akeys m ∧ ∀ j ∈ akeys m, r ≤ j) ∧
    (∀ m : JsMap, loadRootFails m = true ↔ (m = [] ∨ findRootId m = some 0)) := by
  have hempty : ∀ m : JsMap, findRootId m = none ↔ m = [] := by
    intro m
    rw [findRootId]
    by_cases h : m.length = 0
    · simp [h, List.length_eq_zero.1 h]
    · rw [if_neg h]
      constructor
      · intro hc
        by_cases h1 : ahas m 1 = true
        · rw [if_pos h1] at hc; exact Option.noConfusion hc
        · rw [if_neg h1] at hc; exact Option.noConfusion hc
      · intro hc
        exact absurd (by simp [hc]) h
  refine ⟨hempty, ?_, ?_, ?_⟩
  · intro m h1
    have hne : m ≠ [] := by
      rintro rfl
      rw [ahas, aget] at h1
      exact Bool.noConfusion h1
    rw [findRootId, if_neg (by simpa using fun hc => hne (List.length_eq_zero.1 hc)),
      if_pos h1]
  · intro m hne h1
    have hkeys : akeys m ≠ [] := by
      cases m with
      | nil => exact absurd rfl hne
      | cons e t => simp [akeys]
    refine ⟨jsMinList (akeys m), ?_, jsMinList_mem hkeys, fun j hj => jsMinList_le hj⟩
    rw [findRootId, if_neg (by simpa using fun hc => hne (List.length_eq_zero.1 hc)),
      if_neg (by simp [h1])]
  · intro m
    rw [loadRootFails]
    by_cases h : m = []
    · subst h
      have : findRootId ([] : JsMap) = none := (hempty []).2 rfl
      rw [this]
      simp
    · have : ∃ r, findRootId m = some r := by
        cases hr : findRootId m with
        | none => exact absurd ((hempty m).1 hr) h
        | some r => exact ⟨r, rfl⟩
      obtain ⟨r, hr⟩ := this
      rw [hr]
      simp only [h, false_or]
      constructor
      · intro hd
        rw [of_decide_eq_true hd]
      · intro hd
        have h0 : r = 0 := Option.some.inj hd
        subst h0
        exact decide_eq_true rfl

theorem claim3_witness :
    ∃ r, findRootId map357 = some r ∧ r ∈ akeys map357 ∧ ∀ j ∈ akeys map357, r ≤ j :=
  claim3_root_selection.2.2.1 map357 (by simp [map357])
    (by with_unfolding_all rfl)

/-- C3 is false as stated in its "in particular" part: the map `{0}`
(reachable from the input `[{id: 0}]`) is non-empty, yet the load
pipeline's no-determinable-root guard fires, because the selected root
id 0 is falsy in JavaScript. -/
theorem claim3_counterexample :
    zeroMap ≠ [] ∧ loadRootFails zeroMap = true :=
  ⟨by simp [zeroMap], by with_unfolding_all rfl⟩

/-- C4 (amended): a stored generation overrides the inherited value for
that node only; when the entity's generation is absent the node receives
the inherited generation parameter — the root call's 1, incremented per
level — and not the parent tree node's possibly overridden stored
generation plus one. -/
theorem claim4_generation :
    (∀ (m : JsMap) (k g : Rat) (node : Person), 0 < k → aget m k = some node →
      ∃ cs, buildTree k m g = some (node.withTree (some (node.generation.getD g)) cs) ∧
        cs = ([buildTree (k * 2) m (g + 1),
                buildTree (k * 2 + 1) m (g + 1)]).filterMap id) ∧
    (buildTree 1 map15 1).map Person.generation = some (some 1) ∧
    (buildTree 1 map15 1).map (fun t => t.children.map Person.generation) =
      some [some 2, some 2] ∧
    (buildTree 1 genMap 1).map Person.generation = some (some 10) ∧
    (buildTree 1 genMap 1).map (fun t => t.children.map Person.generation) =
      some [some 2] := by
  refine ⟨?_, by with_unfolding_all decide, by with_unfolding_all decide,
    by with_unfolding_all decide, by with_unfolding_all decide⟩
  intro m k g node hk hget
  exact ⟨_, buildTree_of_aget_some hk hget, rfl⟩

theorem claim4_witness :
    ∃ cs, buildTree 1 genMap 1 =
      some ((Person.mk 1 (some 10) none "" "" "" "" "" "" "" "" "" "" "" []).withTree
        (some ((Person.mk 1 (some 10) none
          "" "" "" "" "" "" "" "" "" "" "" []).generation.getD 1)) cs) ∧
      cs = ([buildTree (1 * 2) genMap (1 + 1),
              buildTree (1 * 2 + 1) genMap (1 + 1)]).filterMap id :=
  claim4_generation.1 genMap 1 1
    (Person.mk 1 (some 10) none "" "" "" "" "" "" "" "" "" "" "" [])
    (by norm_num) (by with_unfolding_all rfl)

/-- C4 is false as stated: in the map `{1 ↦ generation 10, 2 ↦ no
generation}`, the tree node for entity 2 (whose stored generation is
absent) has generation 2 — the inherited parameter — while its parent
tree node's generation is the stored override 10, so it is not
`parent.generation + 1 = 11`. -/
theorem claim4_counterexample :
    (aget genMap 2).map Person.generation = some none ∧
    (buildTree 1 genMap 1).map Person.generation = some (some 10) ∧
    (buildTree 1 genMap 1).map (fun t => t.children.map Person.generation) =
      some [some 2] ∧
    (some (2 : Rat) : Option Rat) ≠ some (10 + 1) := by
  refine ⟨by with_unfolding_all rfl, by with_unfolding_all decide,
    by with_unfolding_all decide, by norm_num⟩

/-! The disclosure engine. -/

/-- Attach-free unfolding of `visibleIds`. -/
theorem visibleIds_eq (ov : Overrides) (d : Int) (p : Person) :
    visibleIds ov d p =
      if showChildrenOf ov d p then
        p.id :: (p.children.map
          (visibleIds ov (childDepth (effectiveDepth (aget ov p.id) d)))).flatten
      else [p.id] := by
  cases p with
  | mk i g gd n bd bp sp ud up cc dd dp da j cs =>
    rw [visibleIds]
    simp only [Person.id, Person.children]
    rw [attach_map_fst cs
      (visibleIds ov (childDepth (effectiveDepth (aget ov i) d)))]

/-- The tree node shape produced by `buildTree` on bare-id fixtures. -/
def tnode (i : Rat) (g : Rat) (cs : List Person) : Person :=
  .mk i (some g) none "" "" "" "" "" "" "" "" "" "" "" cs

/-- The materialized tree of `chainMap`: a pure left chain of depth 5. -/
def chainTree : Person :=
  tnode 1 1 [tnode 2 2 [tnode 4 3 [tnode 8 4 [tnode 16 5 []]]]]

theorem buildTree_chainMap : buildTree 1 chainMap 1 = some chainTree := by
  with_unfolding_all rfl

/-- C5: per-node disclosure rules — effective depth 1 under a `collapse`
override, the default constant 4 under `expand`, otherwise the inherited
budget floored at 1; children are shown iff the node has at least one
child and effective depth exceeds 1, each shown child inheriting
effective depth − 1 floored at 0; consequently, with no overrides and
root budget 4, a chain of depth 5 renders exactly the nodes at depths
1–4. -/
theorem claim5_disclosure_rules :
    (∀ d : Int, effectiveDepth (some OverrideState.collapse) d = 1) ∧
    (∀ d : Int, effectiveDepth (some OverrideState.expand) d = defaultDepth) ∧
    defaultDepth = 4 ∧
    (∀ d : Int, effectiveDepth none d = max d 1) ∧
    (∀ (ov : Overrides) (d : Int) (p : Person),
      showChildrenOf ov d p = true ↔
        (p.hasChildrenB = true ∧ 1 < effectiveDepth (aget ov p.id) d)) ∧
    (∀ eff : Int, childDepth eff = max (eff - 1) 0) ∧
    (∀ (ov : Overrides) (d : Int) (p : Person),
      visibleIds ov d p =
        if showChildrenOf ov d p then
          p.id :: (p.children.map
            (visibleIds ov (childDepth (effectiveDepth (aget ov p.id) d)))).flatten
        else [p.id]) ∧
    (buildTree 1 chainMap 1).map (visibleIds [] defaultDepth) = some [1, 2, 4, 8] := by
  refine ⟨fun d => rfl, fun d => rfl, rfl, fun d => rfl, ?_, fun eff => rfl,
    visibleIds_eq, ?_⟩
  · intro ov d p
    rw [showChildrenOf]
    simp [Bool.and_eq_true, decide_eq_true_eq]
  · have hmain : visibleIds ([] : Overrides) defaultDepth chainTree = [1, 2, 4, 8] := by
      simp [visibleIds_eq, chainTree, tnode, showChildrenOf, Person.hasChildrenB,
        Person.children, Person.id, effectiveDepth, aget, childDepth, defaultDepth]
    rw [buildTree_chainMap]
    simp [hmain]

/-- C6: the toggle on node X writes `collapse` into X's entry when X is
currently showing children and `expand` otherwise, leaves every other
identifier's entry unchanged, and toggling X from the default state while
it is not showing (making it `expand`) followed by a second toggle while
it is showing returns X's entry to `collapse`. -/
theorem claim6_toggle :
    (∀ (ov : Overrides) (d : Int) (p : Person),
      aget (toggleNode ov d p) p.id =
        some (if showChildrenOf ov d p then OverrideState.collapse
          else OverrideState.expand)) ∧
    (∀ (ov : Overrides) (d : Int) (p : Person) (y : Rat), y ≠ p.id →
      aget (toggleNode ov d p) y = aget ov y) ∧
    (∀ (ov : Overrides) (d d' : Int) (p : Person),
      aget ov p.id = none → d ≤ 1 → p.hasChildrenB = true →
      aget (toggleNode ov d p) p.id = some OverrideState.expand ∧
      aget (toggleNode (toggleNode ov d p) d' p) p.id = some OverrideState.collapse) := by
  have hself : ∀ (ov : Overrides) (d : Int) (p : Person),
      aget (toggleNode ov d p) p.id =
        some (if showChildrenOf ov d p then OverrideState.collapse
          else OverrideState.expand) := by
    intro ov d p
    rw [toggleNode, aget_aset_self]
  refine ⟨hself, ?_, ?_⟩
  · intro ov d p y hy
    rw [toggleNode, aget_aset_ne _ _ _ _ hy]
  · intro ov d d' p hnone hd hch
    have hshow : showChildrenOf ov d p = false := by
      rw [showChildrenOf, hnone]
      have : effectiveDepth none d = 1 := by
        rw [effectiveDepth]
        omega
      rw [this]
      simp
    have hfirst : aget (toggleNode ov d p) p.id = some OverrideState.expand := by
      rw [hself, hshow]
      rfl
    refine ⟨hfirst, ?_⟩
    have hshow' : showChildrenOf (toggleNode ov d p) d' p = true := by
      rw [showChildrenOf, hfirst, hch]
      rfl
    rw [hself, hshow']
    rfl

theorem claim6_witness :
    (99 : Rat) ≠ (tnode 2 0 [tnode 4 0 []]).id ∧
    aget (toggleNode [] 0 (tnode 2 0 [tnode 4 0 []])) 99 = aget ([] : Overrides) 99 ∧
    aget (toggleNode [] 0 (tnode 2 0 [tnode 4 0 []]))
      (tnode 2 0 [tnode 4 0 []]).id = some OverrideState.expand ∧
    aget (toggleNode (toggleNode [] 0 (tnode 2 0 [tnode 4 0 []])) 7
      (tnode 2 0 [tnode 4 0 []])) (tnode 2 0 [tnode 4 0 []]).id =
      some OverrideState.collapse := by
  have hne : (99 : Rat) ≠ (tnode 2 0 [tnode 4 0 []]).id := by
    rw [tnode, Person.id]
    norm_num
  have h2 := claim6_toggle.2.2 [] 0 7 (tnode 2 0 [tnode 4 0 []]) rfl
    (by norm_num) rfl
  exact ⟨hne, claim6_toggle.2.1 [] 0 (tnode 2 0 [tnode 4 0 []]) 99 hne, h2.1, h2.2⟩

/-- C7: a successful load resets the override mapping to the single entry
`{root: expand}`; a toggle event changes at most the toggled node's entry
and never removes any existing entry. -/
theorem claim7_overrides_lifecycle :
    (∀ (ov : Overrides) (r : Rat),
      stepOverrides ov (UiEvent.loadSuccess r) = [(r, OverrideState.expand)]) ∧
    (∀ (ov : Overrides) (r y : Rat),
      aget (stepOverrides ov (UiEvent.loadSuccess r)) y =
        if y = r then some OverrideState.expand else none) ∧
    (∀ (ov : Overrides) (d : Int) (p : Person) (y : Rat), y ≠ p.id →
      aget (stepOverrides ov (UiEvent.toggleOn d p)) y = aget ov y) ∧
    (∀ (ov : Overrides) (d : Int) (p : Person) (y : Rat) (s : OverrideState),
      aget ov y = some s →
      ∃ s', aget (stepOverrides ov (UiEvent.toggleOn d p)) y = some s') := by
  refine ⟨fun ov r => rfl, ?_, ?_, ?_⟩
  · intro ov r y
    rw [stepOverrides, aget]
    by_cases h : y = r
    · simp [h]
    · simp [h, Ne.symm h, aget]
  · intro ov d p y hy
    rw [stepOverrides, toggleNode, aget_aset_ne _ _ _ _ hy]
  · intro ov d p y s hs
    by_cases h : y = p.id
    · subst h
      rw [stepOverrides, toggleNode, aget_aset_self]
      exact ⟨_, rfl⟩
    · rw [stepOverrides, toggleNode, aget_aset_ne _ _ _ _ h, hs]
      exact ⟨s, rfl⟩

theorem claim7_witness :
    aget (stepOverrides [((2 : Rat), OverrideState.expand)]
      (UiEvent.toggleOn 0 (tnode 4 0 []))) 2 = some OverrideState.expand ∧
    ∃ s', aget (stepOverrides [((2 : Rat), OverrideState.expand)]
      (UiEvent.toggleOn 0 (tnode 4 0 []))) 2 = some s' := by
  have hne : (2 : Rat) ≠ (tnode 4 0 []).id := by
    rw [tnode, Person.id]
    norm_num
  have hframe := claim7_overrides_lifecycle.2.2.1
    [((2 : Rat), OverrideState.expand)] 0 (tnode 4 0 []) 2 hne
  have hkeep := claim7_overrides_lifecycle.2.2.2
    [((2 : Rat), OverrideState.expand)] 0 (tnode 4 0 []) 2 OverrideState.expand
    (by rw [aget]; simp)
  exact ⟨by rw [hframe]; rw [aget]; simp, hkeep⟩

/-! The normalizer. -/

/-- C8: the normalizer is a total function (the embedding returns an
`Option`, never an error); an item is dropped exactly when none of the
keys `id`, `ID`, `Id`, `sosa`, `Sosa` yields a finite number; when kept,
its id is the first finite number produced by that key chain; and every
entity in the output list comes from a record the per-item normalizer
accepted. -/
theorem claim8_normalizer :
    (∀ raw : RawRecord, normalizePerson raw = none ↔
      (parseId (rawGet raw "id") = none ∧ parseId (rawGet raw "ID") = none ∧
        parseId (rawGet raw "Id") = none ∧ parseId (rawGet raw "sosa") = none ∧
        parseId (rawGet raw "Sosa") = none)) ∧
    (∀ (raw : RawRecord) (p : Person), normalizePerson raw = some p →
      (parseId (rawGet raw "id") <|> parseId (rawGet raw "ID") <|>
        parseId (rawGet raw "Id") <|> parseId (rawGet raw "sosa") <|>
        parseId (rawGet raw "Sosa")) = some p.id) ∧
    (∀ (l : List RawRecord) (p : Person), p ∈ normalizeList l →
      ∃ raw, raw ∈ l ∧ normalizePerson raw = some p) := by
  refine ⟨?_, ?_, ?_⟩
  · intro raw
    constructor
    · intro h
      cases hc : (parseId (rawGet raw "id") <|> parseId (rawGet raw "ID") <|>
          parseId (rawGet raw "Id") <|> parseId (rawGet raw "sosa") <|>
          parseId (rawGet raw "Sosa")) with
      | some i =>
        unfold normalizePerson at h
        rw [hc] at h
        exact absurd h (by simp)
      | none =>
        rw [Option.orElse_eq_none, Option.orElse_eq_none, Option.orElse_eq_none,
          Option.orElse_eq_none] at hc
        exact hc
    · rintro ⟨h1, h2, h3, h4, h5⟩
      simp [normalizePerson, h1, h2, h3, h4, h5]
  · intro raw p h
    unfold normalizePerson at h
    cases hc : (parseId (rawGet raw "id") <|> parseId (rawGet raw "ID") <|>
        parseId (rawGet raw "Id") <|> parseId (rawGet raw "sosa") <|>
        parseId (rawGet raw "Sosa")) with
    | none => rw [hc] at h; exact absurd h (by simp)
    | some i =>
      rw [hc] at h
      have hp := Option.some.inj h
      rw [← hp]
      rfl
  · intro l p hp
    simp only [normalizeList, List.mem_filterMap, List.mem_map, id_eq] at hp
    obtain ⟨o, ⟨raw, hraw, hro⟩, ho⟩ := hp
    exact ⟨raw, hraw, hro.trans ho⟩

theorem claim8_witness :
    normalizePerson [("foo", JSValue.num 1)] = none ∧
    (parseId (rawGet [("sosa", JSValue.str "12")] "id") <|>
      parseId (rawGet [("sosa", JSValue.str "12")] "ID") <|>
      parseId (rawGet [("sosa", JSValue.str "12")] "Id") <|>
      parseId (rawGet [("sosa", JSValue.str "12")] "sosa") <|>
      parseId (rawGet [("sosa", JSValue.str "12")] "Sosa")) =
      some (Person.id (Person.mk 12 none none
        "" "" "" "" "" "" "" "" "" "" "" [])) := by
  constructor
  · exact (claim8_normalizer.1 [("foo", JSValue.num 1)]).2
      ⟨rfl, rfl, rfl, rfl, rfl⟩
  · exact claim8_normalizer.2.1 [("sosa", JSValue.str "12")]
      (Person.mk 12 none none "" "" "" "" "" "" "" "" "" "" "" [])
      (by with_unfolding_all rfl)

/-! `buildMap`. -/

theorem mem_akeys_aset {β : Type} (m : List (Rat × β)) (k k' : Rat) (v : β) :
    k ∈ akeys (aset m k' v) ↔ k = k' ∨ k ∈ akeys m := by
  rw [akeys_aset]
  by_cases h : ahas m k' = true
  · rw [if_pos h]
    constructor
    · exact Or.inr
    · rintro (rfl | hm)
      · exact (ahas_iff_mem_akeys m k).1 h
      · exact hm
  · rw [if_neg h]
    simp [List.mem_append, or_comm]

theorem aget_buildMap_loop (ps : List Person) :
    ∀ (m : JsMap) (k : Rat),
      aget (ps.foldl (fun m p => aset m p.id p.resetChildren) m) k =
        match ps.reverse.find? (fun p => decide (p.id = k)) with
        | some p => some p.resetChildren
        | none => aget m k := by
  induction ps with
  | nil => intro m k; rfl
  | cons p ps ih =>
    intro m k
    rw [List.foldl_cons, ih, List.reverse_cons, List.find?_append]
    cases hf : ps.reverse.find? (fun q => decide (q.id = k)) with
    | some q => simp [Option.or]
    | none =>
      have hone : List.find? (fun q => decide (q.id = k)) [p] =
          if p.id = k then some p else none := by
        by_cases hpk : p.id = k <;> simp [List.find?, hpk]
      by_cases hpk : p.id = k
      · rw [hone, if_pos hpk]
        show aget (aset m p.id p.resetChildren) k = some p.resetChildren
        rw [← hpk, aget_aset_self]
      · rw [hone, if_neg hpk]
        show aget (aset m p.id p.resetChildren) k = aget m k
        rw [aget_aset_ne _ _ _ _ (fun hc => hpk hc.symm)]

theorem mem_akeys_buildMap_loop (ps : List Person) :
    ∀ (m : JsMap) (k : Rat),
      k ∈ akeys (ps.foldl (fun m p => aset m p.id p.resetChildren) m) ↔
        k ∈ ps.map Person.id ∨ k ∈ akeys m := by
  induction ps with
  | nil => intro m k; simp
  | cons p ps ih =>
    intro m k
    rw [List.foldl_cons, ih, mem_akeys_aset]
    simp only [List.map_cons, List.mem_cons]
    tauto

theorem nodup_akeys_buildMap_loop (ps : List Person) :
    ∀ m : JsMap, (akeys m).Nodup →
      (akeys (ps.foldl (fun m p => aset m p.id p.resetChildren) m)).Nodup := by
  induction ps with
  | nil => intro m h; exact h
  | cons p ps ih =>
    intro m h
    rw [List.foldl_cons]
    exact ih _ (nodup_akeys_aset _ _ _ h)

/-- C9: `buildMap` applies last-write-wins on duplicate ids — the stored
entity for each id is the latest one in input order, with its children
reset to empty — and the entity map's size equals the number of distinct
ids. -/
theorem claim9_buildMap_lastWriteWins :
    (∀ (ps : List Person) (k : Rat),
      aget (buildMap ps) k =
        (ps.reverse.find? (fun p => decide (p.id = k))).map Person.resetChildren) ∧
    (∀ ps : List Person,
      (buildMap ps).length = (ps.map Person.id).toFinset.card) := by
  constructor
  · intro ps k
    rw [buildMap, aget_buildMap_loop]
    cases hf : ps.reverse.find? (fun q => decide (q.id = k)) <;> simp [aget]
  · intro ps
    have hnodup : (akeys (buildMap ps)).Nodup :=
      nodup_akeys_buildMap_loop ps [] (by simp [akeys])
    have hfin : (akeys (buildMap ps)).toFinset = (ps.map Person.id).toFinset := by
      ext k
      rw [List.mem_toFinset, List.mem_toFinset, buildMap, mem_akeys_buildMap_loop]
      simp [akeys]
    calc (buildMap ps).length
        = (akeys (buildMap ps)).length := (length_akeys _).symm
      _ = (akeys (buildMap ps)).toFinset.card :=
          (List.toFinset_card_of_nodup hnodup).symm
      _ = (ps.map Person.id).toFinset.card := by rw [hfin]

/-- C10: the normalizer accepts any finite number as an id, not only
positive integers — inputs `{id: 0}`, `{id: -1}` and `{id: 2.5}` produce
entities with those very ids (0; negative; non-integer since `5/2` has
denominator 2). -/
theorem claim10_nonpositive_ids :
    (normalizePerson [("id", JSValue.num 0)]).map Person.id = some 0 ∧
    (normalizePerson [("id", JSValue.num (-1))]).map Person.id = some (-1) ∧
    (normalizePerson [("id", JSValue.num (5 / 2))]).map Person.id = some (5 / 2) ∧
    ((-1 : Rat) < 0) ∧ ((5 / 2 : Rat).den = 2) := by
  refine ⟨by with_unfolding_all rfl, by with_unfolding_all rfl,
    by with_unfolding_all rfl, by norm_num, by with_unfolding_all decide⟩

end Genealogy
